import Mathlib

/-!
Shallow embedding of `project-import-audit.py`, a static dependency-audit
utility. The program has three functions and an orchestrator:

* `find_imports_in_file` parses one Python file with `ast.parse` and collects
  the root segment of every imported module name;
* `scan_all_py_files` walks a directory tree and unions the per-file sets over
  every file whose name ends with `.py`;
* `read_requirements` parses a requirements manifest into a set of lower-cased
  package names with version specifiers removed;
* the `__main__` block prints the two sets and their two set differences.

The embedding models a parsed Python file as the list of `Import` /
`ImportFrom` nodes that `ast.walk` yields, a filesystem as a list of files
(each carrying its parse outcome, since `ast.parse` itself is not part of the
repository), and a manifest as the list of its lines. Machine-level string
operations (`str.strip`, `str.split(sep)[0]`, `str.lower`, `str.startswith`,
`str.endswith`) are translated to explicit character-list functions.
-/

namespace ImportAudit

/-- The six ASCII whitespace characters stripped by Python `str.strip()`. -/
def isPySpace (c : Char) : Bool :=
  c == ' ' || c == '\t' || c == '\n' || c == '\r' || c == '\x0b' || c == '\x0c'

/-- Character-list version of `str.strip()`: drop whitespace from both ends. -/
def stripChars (l : List Char) : List Char :=
  ((l.dropWhile isPySpace).reverse.dropWhile isPySpace).reverse

/-- Python `line.strip()`. -/
def pyStrip (s : String) : String := ⟨stripChars s.data⟩

/-- Does the character list start with the literal character sequence `sep`? -/
def startsWithSeq (sep : List Char) : List Char → Bool
  | [] => sep.isEmpty
  | c :: l' =>
    match sep with
    | [] => true
    | a :: sep' => a == c && startsWithSeq sep' l'

/-- The characters strictly before the first occurrence of the sequence `sep`
(the whole list when `sep` does not occur): Python `s.split(sep)[0]`. -/
def takeBefore (sep : List Char) : List Char → List Char
  | [] => []
  | c :: cs => if startsWithSeq sep (c :: cs) then [] else c :: takeBefore sep cs

/-- Line 86 of the source:
`base = line.split('==')[0].split('>=')[0].split('<=')[0]` -
three sequential splits, each keeping the part before the first occurrence. -/
def base_of (t : String) : String :=
  ⟨takeBefore ['<', '='] (takeBefore ['>', '='] (takeBefore ['=', '='] t.data))⟩

/-- ASCII case folding of one character, as Python `str.lower()` acts on the
ASCII range: code points 65-90 are shifted up by 32, everything else is kept. -/
def lowerChar (c : Char) : Char :=
  if 65 ≤ c.toNat ∧ c.toNat ≤ 90 then Char.ofNat (c.toNat + 32) else c

/-- Python `s.lower()` (ASCII fragment). -/
def lowerStr (s : String) : String := ⟨s.data.map lowerChar⟩

/-- Python `line.startswith('#')`. -/
def startsWithHash (t : String) : Bool :=
  match t.data with
  | '#' :: _ => true
  | _ => false

/-- Loop body of `read_requirements` (lines 81-87): strip the line, skip it
when it is empty or begins with `#`, otherwise remove the version suffix by
three sequential splits, lower-case, and add to the accumulated set. -/
def reqStep (pkgs : Finset String) (raw : String) : Finset String :=
  if pyStrip raw ≠ "" ∧ startsWithHash (pyStrip raw) = false then
    insert (lowerStr (base_of (pyStrip raw))) pkgs
  else pkgs

/-- `read_requirements(reqfile)` (lines 63-88), with the manifest file given as
its list of lines. -/
def read_requirements (lines : List String) : Finset String :=
  lines.foldl reqStep ∅

/-- Modelled from the spec: the Manifest Reader's truncation rule as §4.3
words it - "locate the earliest occurrence of each of the three
version-specifier markers (`==`, `>=`, `<=`) and truncate the line at the
earliest one found (if none found, use the whole trimmed line)". This is the
comparison point for the sequential-split rule `base_of` the code implements;
the source itself is present in `src`, this definition exists only to state
the refinement question of claim C1. -/
def specTruncate : List Char → List Char
  | [] => []
  | c :: cs =>
    if startsWithSeq ['=', '='] (c :: cs) || startsWithSeq ['>', '='] (c :: cs) ||
        startsWithSeq ['<', '='] (c :: cs) then []
    else c :: specTruncate cs

/-- `ast.alias`: an imported name together with its optional `as` alias. -/
structure Alias where
  name : String
  asname : Option String
  deriving DecidableEq

/-- The two import-statement node kinds that `find_imports_in_file` inspects:
`ast.Import` (a list of aliases) and `ast.ImportFrom` (an optional dotted
module name, the imported member aliases, and the relative-import level). -/
inductive ImportStmt where
  | imp (names : List Alias)
  | impFrom (module : Option String) (names : List Alias) (level : Nat)
  deriving DecidableEq

/-- `n.name.split('.')[0]` / `item.module.split('.')[0]`: the root segment of
a dotted module path, i.e. the characters before the first `'.'`. -/
def rootSegment (s : String) : String := ⟨s.data.takeWhile (fun c => c != '.')⟩

/-- One iteration of the `ast.walk` loop (lines 26-36): an `Import` node adds
the root segment of each alias name; an `ImportFrom` node adds the root
segment of its module when `item.module` is truthy (neither `None` nor the
empty string), ignoring the imported member names. -/
def procStmt (mods : Finset String) : ImportStmt → Finset String
  | .imp names => names.foldl (fun m a => insert (rootSegment a.name) m) mods
  | .impFrom mo _names _level =>
    match mo with
    | some m => if m = "" then mods else insert (rootSegment m) mods
    | none => mods

/-- Body of `find_imports_in_file` after a successful `ast.parse` (lines
25-37): the fold of `procStmt` over the import nodes of the file, starting
from the empty set. -/
def find_imports_in_ast (nodes : List ImportStmt) : Finset String :=
  nodes.foldl procStmt ∅

/-- A file of the scanned tree: its name and the outcome of reading and
`ast.parse`-ing it - `Except.error` models a `SyntaxError` (or `IOError`)
escaping from lines 23-24, `Except.ok` the list of import nodes that
`ast.walk` would yield. -/
structure FsFile where
  name : String
  parse : Except String (List ImportStmt)

/-- `find_imports_in_file(filename)` (lines 4-37): propagate a parse failure,
otherwise run the extraction loop. -/
def find_imports_in_file (f : FsFile) : Except String (Finset String) :=
  match f.parse with
  | Except.error e => Except.error e
  | Except.ok nodes => Except.ok (find_imports_in_ast nodes)

/-- Python `file.endswith('.py')`, as a character-list suffix test. -/
def endswith (s suf : String) : Bool := suf.data.isSuffixOf s.data

/-- The `os.walk` loop of `scan_all_py_files` (lines 54-61), flattened to the
traversal-ordered list of files: union each `.py` file's imports into the
running accumulator; an exception from `find_imports_in_file` aborts the loop
and propagates. -/
def scanGo (acc : Finset String) : List FsFile → Except String (Finset String)
  | [] => Except.ok acc
  | f :: rest =>
    if endswith f.name ".py" then
      match find_imports_in_file f with
      | Except.error e => Except.error e
      | Except.ok ms => scanGo (acc ∪ ms) rest
    else scanGo acc rest

/-- `scan_all_py_files(src_dir)` (lines 39-61). -/
def scan_all_py_files (files : List FsFile) : Except String (Finset String) :=
  scanGo ∅ files

/-- `imports - reqs` of line 104. -/
def possibly_missing (imports reqs : Finset String) : Finset String := imports \ reqs

/-- `reqs - imports` of line 105. -/
def possibly_unused (imports reqs : Finset String) : Finset String := reqs \ imports

/-- Python `sorted(...)` applied to one of the string sets. -/
def printSorted (s : Finset String) : List String := s.sort (· ≤ ·)

/-- Rendering of a printed list, glue for the output lines. -/
def renderList (l : List String) : String := "[" ++ String.intercalate ", " l ++ "]"

/-- The `__main__` block (lines 90-105): scan the tree, then read the
manifest and print the four report lines. The result is the list of lines
written to stdout together with the uncaught exception, if any: when the scan
raises, nothing has been printed yet and the run dies with the error. -/
def run_main (files : List FsFile) (reqLines : List String) :
    List String × Option String :=
  match scan_all_py_files files with
  | Except.error e => ([], some e)
  | Except.ok imports =>
    let reqs := read_requirements reqLines
    (["Imports found in codebase: " ++ renderList (printSorted imports),
      "Packages in requirements.txt: " ++ renderList (printSorted reqs),
      "Possibly missing in requirements.txt (used in code, not listed): " ++
        renderList (printSorted (possibly_missing imports reqs)),
      "Possibly unused in codebase (listed, but not imported directly): " ++
        renderList (printSorted (possibly_unused imports reqs))],
     none)

/-- Specification-side view of one statement's contribution. -/
def aliasRoots : List Alias → Finset String
  | [] => ∅
  | a :: rest => insert (rootSegment a.name) (aliasRoots rest)

/-- The set of root names a single import node contributes. -/
def stmtRoots : ImportStmt → Finset String
  | .imp names => aliasRoots names
  | .impFrom mo _names _level =>
    match mo with
    | some m => if m = "" then ∅ else {rootSegment m}
    | none => ∅

/-- The union of the contributions of a list of import nodes. -/
def fileRoots : List ImportStmt → Finset String
  | [] => ∅
  | s :: rest => stmtRoots s ∪ fileRoots rest

/-- The module-path strings a node mentions (alias names of an `Import`, the
module of an `ImportFrom`); member names and aliases are not among them. -/
def stmtStrings : ImportStmt → List String
  | .imp names => names.map (fun a => a.name)
  | .impFrom mo _names _level =>
    match mo with
    | some m => [m]
    | none => []

/-- Is `c` one of the three characters occurring in version markers? -/
def markerChar (c : Char) : Bool := c == '=' || c == '<' || c == '>'

/-- Every module-path string of the file consists of identifier-and-dot
characters only, i.e. is free of `=`, `<` and `>` - true of every file
`ast.parse` accepts, since module paths are dotted identifiers. -/
def identOnly (nodes : List ImportStmt) : Bool :=
  nodes.all fun s => (stmtStrings s).all fun str => str.data.all fun c => !markerChar c

/-- Does the character sequence `sep` occur contiguously inside the list? -/
def containsSeq (sep : List Char) : List Char → Bool
  | [] => sep.isEmpty
  | c :: cs => startsWithSeq sep (c :: cs) || containsSeq sep cs

/-- Did the modelled `ast.parse` succeed on this file? -/
def isOkE (x : Except String (List ImportStmt)) : Bool :=
  match x with
  | Except.ok _ => true
  | Except.error _ => false

/-- The import set a single file contributes to a successful scan. -/
def pyImports (f : FsFile) : Finset String :=
  if endswith f.name ".py" then
    match f.parse with
    | Except.ok nodes => find_imports_in_ast nodes
    | Except.error _ => ∅
  else ∅

/-- The union of the per-file contributions, in traversal order. -/
def bigUnion : List FsFile → Finset String
  | [] => ∅
  | f :: rest => pyImports f ∪ bigUnion rest

/-- Erase the imported member names of `ImportFrom` nodes. -/
def dropMembers : ImportStmt → ImportStmt
  | .imp names => .imp names
  | .impFrom mo _names level => .impFrom mo [] level

/-- Forget the `as` alias of one imported name. -/
def dropAsname (a : Alias) : Alias := ⟨a.name, none⟩

/-- Erase the `as` aliases of direct-import nodes. -/
def dropAliases : ImportStmt → ImportStmt
  | .imp names => .imp (names.map dropAsname)
  | .impFrom mo names level => .impFrom mo names level

theorem aliasFold (names : List Alias) (mods : Finset String) :
    names.foldl (fun m a => insert (rootSegment a.name) m) mods = mods ∪ aliasRoots names := by
  induction names generalizing mods with
  | nil => simp [aliasRoots]
  | cons a rest ih =>
    simp only [List.foldl_cons, aliasRoots]
    rw [ih, Finset.insert_union, Finset.union_insert]

theorem procStmt_eq (mods : Finset String) (s : ImportStmt) :
    procStmt mods s = mods ∪ stmtRoots s := by
  cases s with
  | imp names => simpa [procStmt, stmtRoots] using aliasFold names mods
  | impFrom mo names level =>
    cases mo with
    | none => simp [procStmt, stmtRoots]
    | some m =>
      by_cases h : m = ""
      · simp [procStmt, stmtRoots, h]
      · simp only [procStmt, stmtRoots, if_neg h]
        ext y
        simp [or_comm]

theorem foldl_procStmt (nodes : List ImportStmt) (mods : Finset String) :
    nodes.foldl procStmt mods = mods ∪ fileRoots nodes := by
  induction nodes generalizing mods with
  | nil => simp [fileRoots]
  | cons s rest ih =>
    simp only [List.foldl_cons, fileRoots]
    rw [procStmt_eq, ih, Finset.union_assoc]

theorem find_imports_eq (nodes : List ImportStmt) :
    find_imports_in_ast nodes = fileRoots nodes := by
  unfold find_imports_in_ast
  rw [foldl_procStmt, Finset.empty_union]

theorem mem_fileRoots_of_mem {s : ImportStmt} {nodes : List ImportStmt} (h : s ∈ nodes)
    {x : String} (hx : x ∈ stmtRoots s) : x ∈ fileRoots nodes := by
  induction nodes with
  | nil => cases h
  | cons t rest ih =>
    rcases List.mem_cons.mp h with h1 | h2
    · subst h1; exact Finset.mem_union_left _ hx
    · exact Finset.mem_union_right _ (ih h2)

theorem rootSegment_mem_aliasRoots {a : Alias} {names : List Alias} (h : a ∈ names) :
    rootSegment a.name ∈ aliasRoots names := by
  induction names with
  | nil => cases h
  | cons b rest ih =>
    rcases List.mem_cons.mp h with h1 | h2
    · subst h1; exact Finset.mem_insert_self _ _
    · exact Finset.mem_insert_of_mem (ih h2)

theorem stmtRoots_dropMembers (s : ImportStmt) : stmtRoots (dropMembers s) = stmtRoots s := by
  cases s with
  | imp names => rfl
  | impFrom mo names level => cases mo <;> rfl

theorem aliasRoots_dropAsname (names : List Alias) :
    aliasRoots (names.map dropAsname) = aliasRoots names := by
  induction names with
  | nil => rfl
  | cons a rest ih => simp [aliasRoots, dropAsname, ih]

theorem stmtRoots_dropAliases (s : ImportStmt) : stmtRoots (dropAliases s) = stmtRoots s := by
  cases s with
  | imp names => simpa [dropAliases, stmtRoots] using aliasRoots_dropAsname names
  | impFrom mo names level => rfl

theorem fileRoots_map_eq (f : ImportStmt → ImportStmt)
    (hf : ∀ s, stmtRoots (f s) = stmtRoots s) (nodes : List ImportStmt) :
    fileRoots (nodes.map f) = fileRoots nodes := by
  induction nodes with
  | nil => rfl
  | cons s rest ih => simp [fileRoots, hf, ih]

theorem exists_name_of_mem_aliasRoots {x : String} {names : List Alias}
    (hx : x ∈ aliasRoots names) : ∃ a ∈ names, x = rootSegment a.name := by
  induction names with
  | nil => simp [aliasRoots] at hx
  | cons a rest ih =>
    rcases Finset.mem_insert.mp hx with h1 | h2
    · exact ⟨a, List.mem_cons_self a rest, h1⟩
    · obtain ⟨b, hb, he⟩ := ih h2
      exact ⟨b, List.mem_cons_of_mem _ hb, he⟩

theorem exists_string_of_mem_stmtRoots {x : String} {s : ImportStmt} (hx : x ∈ stmtRoots s) :
    ∃ str ∈ stmtStrings s, x = rootSegment str := by
  cases s with
  | imp names =>
    obtain ⟨a, ha, he⟩ := exists_name_of_mem_aliasRoots hx
    exact ⟨a.name, List.mem_map_of_mem _ ha, he⟩
  | impFrom mo names level =>
    cases mo with
    | none => simp [stmtRoots] at hx
    | some m =>
      by_cases h : m = ""
      · simp [stmtRoots, h] at hx
      · refine ⟨m, by simp [stmtStrings], ?_⟩
        exact Finset.mem_singleton.mp (by simpa [stmtRoots, h] using hx)

theorem rootSegment_no_dot (s : String) : '.' ∉ (rootSegment s).data := by
  intro h
  have h' : '.' ∈ s.data.takeWhile (fun c => c != '.') := h
  have := List.mem_takeWhile_imp h'
  simp at this

theorem rootSegment_chars_subset {c : Char} {s : String} (h : c ∈ (rootSegment s).data) :
    c ∈ s.data := by
  have h' : c ∈ s.data.takeWhile (fun c => c != '.') := h
  exact (List.takeWhile_sublist _).subset h'

theorem reqStep_subset (pkgs : Finset String) (raw : String) : pkgs ⊆ reqStep pkgs raw := by
  unfold reqStep
  split
  · exact Finset.subset_insert _ _
  · exact Finset.Subset.refl _

theorem foldl_reqStep_subset (lines : List String) (pkgs : Finset String) :
    pkgs ⊆ lines.foldl reqStep pkgs := by
  induction lines generalizing pkgs with
  | nil => exact Finset.Subset.refl _
  | cons l rest ih => exact (reqStep_subset pkgs l).trans (ih _)

theorem mem_foldl_reqStep {raw : String} {lines : List String} (h : raw ∈ lines)
    (h1 : pyStrip raw ≠ "") (h2 : startsWithHash (pyStrip raw) = false) (pkgs : Finset String) :
    lowerStr (base_of (pyStrip raw)) ∈ lines.foldl reqStep pkgs := by
  induction lines generalizing pkgs with
  | nil => cases h
  | cons l rest ih =>
    rcases List.mem_cons.mp h with h0 | h0
    · subst h0
      rw [List.foldl_cons]
      refine foldl_reqStep_subset rest _ ?_
      unfold reqStep
      rw [if_pos ⟨h1, h2⟩]
      exact Finset.mem_insert_self _ _
    · exact ih h0 _

theorem mem_read_requirements {raw : String} {lines : List String} (h : raw ∈ lines)
    (h1 : pyStrip raw ≠ "") (h2 : startsWithHash (pyStrip raw) = false) :
    lowerStr (base_of (pyStrip raw)) ∈ read_requirements lines :=
  mem_foldl_reqStep h h1 h2 ∅

theorem reqStep_skip {raw : String}
    (hskip : pyStrip raw = "" ∨ startsWithHash (pyStrip raw) = true) (pkgs : Finset String) :
    reqStep pkgs raw = pkgs := by
  unfold reqStep
  apply if_neg
  rintro ⟨hne, hsw⟩
  rcases hskip with h | h
  · exact hne h
  · simp [h] at hsw

theorem foldl_reqStep_skip_all {lines : List String}
    (h : ∀ l ∈ lines, pyStrip l = "" ∨ startsWithHash (pyStrip l) = true)
    (pkgs : Finset String) : lines.foldl reqStep pkgs = pkgs := by
  induction lines generalizing pkgs with
  | nil => rfl
  | cons l rest ih =>
    rw [List.foldl_cons, reqStep_skip (h l (List.mem_cons_self l rest)) pkgs]
    exact ih (fun x hx => h x (List.mem_cons_of_mem _ hx)) pkgs

theorem mem_foldl_reqStep_elim {x : String} {lines : List String} {pkgs : Finset String}
    (h : x ∈ lines.foldl reqStep pkgs) :
    x ∈ pkgs ∨ ∃ raw ∈ lines, pyStrip raw ≠ "" ∧ startsWithHash (pyStrip raw) = false ∧
      x = lowerStr (base_of (pyStrip raw)) := by
  induction lines generalizing pkgs with
  | nil => exact Or.inl h
  | cons l rest ih =>
    rw [List.foldl_cons] at h
    rcases ih h with hx | ⟨raw, hr, h1, h2, h3⟩
    · unfold reqStep at hx
      by_cases hc : pyStrip l ≠ "" ∧ startsWithHash (pyStrip l) = false
      · rw [if_pos hc] at hx
        rcases Finset.mem_insert.mp hx with h0 | h0
        · exact Or.inr ⟨l, List.mem_cons_self l rest, hc.1, hc.2, h0⟩
        · exact Or.inl h0
      · rw [if_neg hc] at hx
        exact Or.inl hx
    · exact Or.inr ⟨raw, List.mem_cons_of_mem _ hr, h1, h2, h3⟩

theorem mem_read_requirements_elim {x : String} {lines : List String}
    (h : x ∈ read_requirements lines) :
    ∃ raw ∈ lines, pyStrip raw ≠ "" ∧ startsWithHash (pyStrip raw) = false ∧
      x = lowerStr (base_of (pyStrip raw)) := by
  rcases mem_foldl_reqStep_elim h with hx | hx
  · simp at hx
  · exact hx

theorem consPre {a b : Char} {l₁ l₂ : List Char} :
    (a :: l₁) <+: (b :: l₂) ↔ a = b ∧ l₁ <+: l₂ := by
  constructor
  · rintro ⟨t, ht⟩
    rw [List.cons_append] at ht
    injection ht with h1 h2
    exact ⟨h1, t, h2⟩
  · rintro ⟨rfl, t, ht⟩
    exact ⟨t, by rw [List.cons_append, ht]⟩

theorem takeBefore_pre (sep : List Char) (l : List Char) : takeBefore sep l <+: l := by
  induction l with
  | nil => exact List.prefix_refl _
  | cons c cs ih =>
    unfold takeBefore
    split
    · exact ⟨c :: cs, rfl⟩
    · exact consPre.mpr ⟨rfl, ih⟩

theorem startsWithSeq_iff {sep l : List Char} : startsWithSeq sep l = true ↔ sep <+: l := by
  induction l generalizing sep with
  | nil =>
    cases sep with
    | nil => simp [startsWithSeq, List.isEmpty]
    | cons a s' => simp [startsWithSeq, List.isEmpty]
  | cons c cs ih =>
    cases sep with
    | nil => simp [startsWithSeq, List.nil_prefix]
    | cons a s' =>
      simp only [startsWithSeq, Bool.and_eq_true, beq_iff_eq]
      rw [ih]
      constructor
      · rintro ⟨rfl, h⟩
        exact consPre.mpr ⟨rfl, h⟩
      · intro h
        rcases consPre.mp h with ⟨rfl, h2⟩
        exact ⟨rfl, h2⟩

theorem startsWithSeq_mono {sep l₁ l₂ : List Char} (h : startsWithSeq sep l₁ = true)
    (hp : l₁ <+: l₂) : startsWithSeq sep l₂ = true := by
  rw [startsWithSeq_iff] at h ⊢
  exact h.trans hp

theorem containsSeq_of_startsWith {sep l : List Char} (h : startsWithSeq sep l = true) :
    containsSeq sep l = true := by
  cases l with
  | nil =>
    cases sep with
    | nil => decide
    | cons a s' => simp [startsWithSeq] at h
  | cons c cs =>
    unfold containsSeq
    rw [h]
    rfl

theorem containsSeq_mono {sep l₁ l₂ : List Char} (hsep : sep ≠ [])
    (h : containsSeq sep l₁ = true) (hp : l₁ <+: l₂) : containsSeq sep l₂ = true := by
  induction l₁ generalizing l₂ with
  | nil =>
    unfold containsSeq at h
    cases sep with
    | nil => exact absurd rfl hsep
    | cons a s' => simp [List.isEmpty] at h
  | cons c cs ih =>
    unfold containsSeq at h
    simp only [Bool.or_eq_true] at h
    rcases h with h1 | h1
    · exact containsSeq_of_startsWith (startsWithSeq_mono h1 hp)
    · cases l₂ with
      | nil =>
        rcases hp with ⟨t, ht⟩
        simp at ht
      | cons d ds =>
        rcases consPre.mp hp with ⟨rfl, h2⟩
        unfold containsSeq
        rw [ih h1 h2]
        simp

theorem bool_true_of_ne_false {b : Bool} (h : ¬ b = false) : b = true := by
  cases b
  · exact absurd rfl h
  · rfl

theorem not_containsSeq_takeBefore (sep : List Char) (hsep : sep ≠ []) (l : List Char) :
    containsSeq sep (takeBefore sep l) = false := by
  induction l with
  | nil =>
    cases sep with
    | nil => exact absurd rfl hsep
    | cons a s' => rfl
  | cons c cs ih =>
    unfold takeBefore
    split
    · cases sep with
      | nil => exact absurd rfl hsep
      | cons a s' => rfl
    · rename_i hns
      unfold containsSeq
      rw [Bool.or_eq_false_iff]
      constructor
      · by_contra hq
        have hq' := bool_true_of_ne_false hq
        exact hns (startsWithSeq_mono hq' (consPre.mpr ⟨rfl, takeBefore_pre sep cs⟩))
      · exact ih

theorem not_containsSeq_takeBefore_other {sep sep₂ : List Char} (hsep : sep ≠ [])
    {l : List Char} (h : containsSeq sep l = false) :
    containsSeq sep (takeBefore sep₂ l) = false := by
  by_contra hq
  have hq' := bool_true_of_ne_false hq
  have := containsSeq_mono hsep hq' (takeBefore_pre sep₂ l)
  rw [h] at this
  cases this

theorem base_of_no_marker (t : String) :
    containsSeq ['=', '='] (base_of t).data = false ∧
      containsSeq ['>', '='] (base_of t).data = false ∧
      containsSeq ['<', '='] (base_of t).data = false := by
  refine ⟨?_, ?_, ?_⟩
  · show containsSeq ['=', '=']
      (takeBefore ['<', '='] (takeBefore ['>', '='] (takeBefore ['=', '='] t.data))) = false
    apply not_containsSeq_takeBefore_other (by simp)
    apply not_containsSeq_takeBefore_other (by simp)
    exact not_containsSeq_takeBefore _ (by simp) _
  · show containsSeq ['>', '=']
      (takeBefore ['<', '='] (takeBefore ['>', '='] (takeBefore ['=', '='] t.data))) = false
    apply not_containsSeq_takeBefore_other (by simp)
    exact not_containsSeq_takeBefore _ (by simp) _
  · show containsSeq ['<', '=']
      (takeBefore ['<', '='] (takeBefore ['>', '='] (takeBefore ['=', '='] t.data))) = false
    exact not_containsSeq_takeBefore _ (by simp) _

set_option maxRecDepth 4000 in
theorem charOfNat_toNat : ∀ n ∈ Finset.range 123, 97 ≤ n → (Char.ofNat n).toNat = n := by
  decide

theorem lowerChar_fix {a : Char} (ha : a.toNat < 65) (c : Char) :
    lowerChar c = a ↔ c = a := by
  unfold lowerChar
  split
  · rename_i h
    constructor
    · intro he
      exfalso
      have h97 : 97 ≤ c.toNat + 32 := by omega
      have h123 : c.toNat + 32 < 123 := by omega
      have hval := charOfNat_toNat (c.toNat + 32) (Finset.mem_range.mpr h123) h97
      rw [he] at hval
      omega
    · intro he
      subst he
      exact absurd h.1 (by omega)
  · exact Iff.rfl

theorem startsWithSeq_map_lower {sep : List Char} (hsep : ∀ a ∈ sep, a.toNat < 65)
    (l : List Char) : startsWithSeq sep (l.map lowerChar) = startsWithSeq sep l := by
  induction l generalizing sep with
  | nil => rfl
  | cons c cs ih =>
    cases sep with
    | nil => rfl
    | cons a s' =>
      simp only [List.map_cons, startsWithSeq]
      have hfix := lowerChar_fix (hsep a (List.mem_cons_self a s')) c
      have h1 : (a == lowerChar c) = (a == c) := by
        rw [Bool.eq_iff_iff]
        simp only [beq_iff_eq]
        constructor
        · intro h2
          exact (hfix.mp h2.symm).symm
        · intro h2
          exact (hfix.mpr h2.symm).symm
      rw [h1, ih (fun x hx => hsep x (List.mem_cons_of_mem _ hx))]

theorem containsSeq_map_lower {sep : List Char} (hsep : ∀ a ∈ sep, a.toNat < 65)
    (l : List Char) : containsSeq sep (l.map lowerChar) = containsSeq sep l := by
  induction l with
  | nil => rfl
  | cons c cs ih =>
    simp only [List.map_cons, containsSeq]
    rw [show (lowerChar c :: cs.map lowerChar) = (c :: cs).map lowerChar from rfl,
      startsWithSeq_map_lower hsep, ih]

theorem read_requirements_no_marker {x : String} {lines : List String}
    (h : x ∈ read_requirements lines) :
    containsSeq ['=', '='] x.data = false ∧ containsSeq ['>', '='] x.data = false ∧
      containsSeq ['<', '='] x.data = false := by
  obtain ⟨raw, _, _, _, hx⟩ := mem_read_requirements_elim h
  subst hx
  have hb := base_of_no_marker (pyStrip raw)
  refine ⟨?_, ?_, ?_⟩
  · show containsSeq ['=', '='] ((base_of (pyStrip raw)).data.map lowerChar) = false
    rw [containsSeq_map_lower (by decide)]
    exact hb.1
  · show containsSeq ['>', '='] ((base_of (pyStrip raw)).data.map lowerChar) = false
    rw [containsSeq_map_lower (by decide)]
    exact hb.2.1
  · show containsSeq ['<', '='] ((base_of (pyStrip raw)).data.map lowerChar) = false
    rw [containsSeq_map_lower (by decide)]
    exact hb.2.2

theorem bool_false_of_ne_true {b : Bool} (h : ¬ b = true) : b = false := by
  cases b
  · rfl
  · exact absurd rfl h

theorem scanGo_error_of_bad {l : List FsFile}
    (hbad : ∃ f ∈ l, endswith f.name ".py" = true ∧ isOkE f.parse = false)
    (acc : Finset String) : ∃ e, scanGo acc l = Except.error e := by
  induction l generalizing acc with
  | nil =>
    obtain ⟨f, hf, _⟩ := hbad
    cases hf
  | cons f rest ih =>
    unfold scanGo
    by_cases hpy : endswith f.name ".py" = true
    · rw [if_pos hpy]
      cases hp : f.parse with
      | error e =>
        have hf : find_imports_in_file f = Except.error e := by
          unfold find_imports_in_file
          rw [hp]
        rw [hf]
        exact ⟨e, rfl⟩
      | ok nodes =>
        have hf : find_imports_in_file f = Except.ok (find_imports_in_ast nodes) := by
          unfold find_imports_in_file
          rw [hp]
        rw [hf]
        apply ih
        obtain ⟨g, hg, hpg, hbg⟩ := hbad
        rcases List.mem_cons.mp hg with rfl | hg'
        · rw [hp] at hbg
          simp [isOkE] at hbg
        · exact ⟨g, hg', hpg, hbg⟩
    · rw [if_neg hpy]
      apply ih
      obtain ⟨g, hg, hpg, hbg⟩ := hbad
      rcases List.mem_cons.mp hg with rfl | hg'
      · exact absurd hpg hpy
      · exact ⟨g, hg', hpg, hbg⟩

theorem scanGo_ok_of_allOk {l : List FsFile}
    (h : ∀ f ∈ l, endswith f.name ".py" = true → isOkE f.parse = true) (acc : Finset String) :
    scanGo acc l = Except.ok (acc ∪ bigUnion l) := by
  induction l generalizing acc with
  | nil =>
    show Except.ok acc = Except.ok (acc ∪ bigUnion [])
    rw [show bigUnion [] = ∅ from rfl, Finset.union_empty]
  | cons f rest ih =>
    unfold scanGo
    by_cases hpy : endswith f.name ".py" = true
    · rw [if_pos hpy]
      cases hp : f.parse with
      | error e =>
        exfalso
        have hok := h f (List.mem_cons_self f rest) hpy
        rw [hp] at hok
        simp [isOkE] at hok
      | ok nodes =>
        have hf : find_imports_in_file f = Except.ok (find_imports_in_ast nodes) := by
          unfold find_imports_in_file
          rw [hp]
        rw [hf]
        show scanGo (acc ∪ find_imports_in_ast nodes) rest = Except.ok (acc ∪ bigUnion (f :: rest))
        rw [ih (fun g hg => h g (List.mem_cons_of_mem _ hg))]
        have hpi : pyImports f = find_imports_in_ast nodes := by
          unfold pyImports
          rw [if_pos hpy, hp]
        rw [show bigUnion (f :: rest) = pyImports f ∪ bigUnion rest from rfl, hpi,
          Finset.union_assoc]
    · rw [if_neg hpy, ih (fun g hg => h g (List.mem_cons_of_mem _ hg))]
      have hpi : pyImports f = ∅ := by
        unfold pyImports
        rw [if_neg hpy]
      rw [show bigUnion (f :: rest) = pyImports f ∪ bigUnion rest from rfl, hpi,
        Finset.empty_union]

theorem allOk_of_scan_ok {l : List FsFile} {s : Finset String}
    (h : scan_all_py_files l = Except.ok s) :
    ∀ f ∈ l, endswith f.name ".py" = true → isOkE f.parse = true := by
  by_contra hq
  push_neg at hq
  obtain ⟨f, hf, hpy, hok⟩ := hq
  obtain ⟨e, he⟩ := scanGo_error_of_bad ⟨f, hf, hpy, bool_false_of_ne_true hok⟩ ∅
  unfold scan_all_py_files at h
  rw [he] at h
  cases h

theorem bigUnion_perm {l₁ l₂ : List FsFile} (h : l₁.Perm l₂) : bigUnion l₁ = bigUnion l₂ := by
  induction h with
  | nil => rfl
  | cons x _ ih =>
    show pyImports x ∪ bigUnion _ = pyImports x ∪ bigUnion _
    rw [ih]
  | swap x y l =>
    show pyImports y ∪ (pyImports x ∪ bigUnion l) = pyImports x ∪ (pyImports y ∪ bigUnion l)
    exact Finset.union_left_comm _ _ _
  | trans _ _ ih₁ ih₂ => exact ih₁.trans ih₂

theorem startsWithSeq_nil (l : List Char) : startsWithSeq [] l = true := by
  cases l <;> rfl

theorem tb_step {sep : List Char} {c : Char} {cs : List Char}
    (h : startsWithSeq sep (c :: cs) = false) :
    takeBefore sep (c :: cs) = c :: takeBefore sep cs := by
  show (if startsWithSeq sep (c :: cs) = true then [] else c :: takeBefore sep cs) =
    c :: takeBefore sep cs
  rw [if_neg (by simp [h])]

theorem base_of_eqeq {t : String} {r : List Char} (ht : t.data = '=' :: '=' :: r) :
    lowerStr (base_of t) = "" := by
  have h1 : takeBefore ['=', '='] t.data = [] := by
    rw [ht]
    unfold takeBefore
    rw [if_pos (by simp [startsWithSeq, startsWithSeq_nil])]
  show lowerStr ⟨takeBefore ['<', '='] (takeBefore ['>', '='] (takeBefore ['=', '='] t.data))⟩ = ""
  rw [h1]
  decide

theorem base_of_geq {t : String} {r : List Char} (ht : t.data = '>' :: '=' :: r)
    (hr : startsWithSeq ['='] r = false) : lowerStr (base_of t) = "" := by
  have h0 : startsWithSeq ['=', '='] ('>' :: '=' :: r) = false := by
    simp [startsWithSeq]
  have h1 : startsWithSeq ['=', '='] ('=' :: r) = false := by
    simp [startsWithSeq, hr]
  have h2 : takeBefore ['=', '='] t.data = '>' :: '=' :: takeBefore ['=', '='] r := by
    rw [ht, tb_step h0, tb_step h1]
  have h3 : takeBefore ['>', '='] ('>' :: '=' :: takeBefore ['=', '='] r) = [] := by
    unfold takeBefore
    rw [if_pos (by simp [startsWithSeq, startsWithSeq_nil])]
  show lowerStr ⟨takeBefore ['<', '='] (takeBefore ['>', '='] (takeBefore ['=', '='] t.data))⟩ = ""
  rw [h2, h3]
  decide

theorem base_of_leq {t : String} {r : List Char} (ht : t.data = '<' :: '=' :: r)
    (hr : startsWithSeq ['='] r = false) : lowerStr (base_of t) = "" := by
  have h0 : startsWithSeq ['=', '='] ('<' :: '=' :: r) = false := by
    simp [startsWithSeq]
  have h1 : startsWithSeq ['=', '='] ('=' :: r) = false := by
    simp [startsWithSeq, hr]
  have h2 : takeBefore ['=', '='] t.data = '<' :: '=' :: takeBefore ['=', '='] r := by
    rw [ht, tb_step h0, tb_step h1]
  have h3 : takeBefore ['>', '='] ('<' :: '=' :: takeBefore ['=', '='] r) =
      '<' :: '=' :: takeBefore ['>', '='] (takeBefore ['=', '='] r) := by
    rw [tb_step (by simp [startsWithSeq]), tb_step (by simp [startsWithSeq])]
  have h4 : takeBefore ['<', '=']
      ('<' :: '=' :: takeBefore ['>', '='] (takeBefore ['=', '='] r)) = [] := by
    unfold takeBefore
    rw [if_pos (by simp [startsWithSeq, startsWithSeq_nil])]
  show lowerStr ⟨takeBefore ['<', '='] (takeBefore ['>', '='] (takeBefore ['=', '='] t.data))⟩ = ""
  rw [h2, h3, h4]
  decide

theorem exists_stmt_of_mem_fileRoots {x : String} {nodes : List ImportStmt}
    (hx : x ∈ fileRoots nodes) : ∃ s ∈ nodes, x ∈ stmtRoots s := by
  induction nodes with
  | nil => simp [fileRoots] at hx
  | cons s rest ih =>
    rcases Finset.mem_union.mp hx with h | h
    · exact ⟨s, List.mem_cons_self s rest, h⟩
    · obtain ⟨t, ht, h2⟩ := ih h
      exact ⟨t, List.mem_cons_of_mem _ ht, h2⟩

theorem fileRoots_empty_of_all_none {nodes : List ImportStmt}
    (h : ∀ s ∈ nodes, ∃ ns lvl, s = ImportStmt.impFrom none ns lvl) : fileRoots nodes = ∅ := by
  induction nodes with
  | nil => rfl
  | cons s rest ih =>
    obtain ⟨ns, lvl, rfl⟩ := h _ (List.mem_cons_self _ rest)
    show stmtRoots (ImportStmt.impFrom none ns lvl) ∪ fileRoots rest = ∅
    rw [show stmtRoots (ImportStmt.impFrom none ns lvl) = ∅ from rfl, Finset.empty_union]
    exact ih (fun x hx => h x (List.mem_cons_of_mem _ hx))

/-- C1 counterexample. The claim says the Manifest Reader adds the
lower-cased prefix of the trimmed line before the earliest occurrence of any
of `==`, `>=`, `<=`. On the line `A<==1.0` the earliest marker occurrence is
`<=` at index 1, so the claim predicts the entry `"a"`; the code's sequential
splits cut at the `==` occurrence first and produce `"a<"`, and `"a"` is not
in the result. -/
theorem C1_counterexample :
    read_requirements ["A<==1.0"] = {"a<"} ∧
      lowerStr ⟨specTruncate (pyStrip "A<==1.0").data⟩ = "a" ∧
      lowerStr ⟨specTruncate (pyStrip "A<==1.0").data⟩ ∉ read_requirements ["A<==1.0"] := by
  decide

/-- C1 (amended): for every manifest line that survives skipping, the
Manifest Reader adds the lower-casing of the line's version-free base, where
the base is obtained by three sequential truncations - at the first `==`,
then at the first `>=`, then at the first `<=` of what remains; the base is
always a prefix of the trimmed line, and the spec's two examples hold
(`Requests==2.31.0` contributes `"requests"`, `numpy>=1.20` contributes
`"numpy"`). -/
theorem C1_amended :
    (∀ (lines : List String) (raw : String), raw ∈ lines → pyStrip raw ≠ "" →
      startsWithHash (pyStrip raw) = false →
      lowerStr (base_of (pyStrip raw)) ∈ read_requirements lines) ∧
    (∀ t : String, (base_of t).data <+: t.data) ∧
    read_requirements ["Requests==2.31.0"] = {"requests"} ∧
    read_requirements ["numpy>=1.20"] = {"numpy"} := by
  refine ⟨fun lines raw h h1 h2 => mem_read_requirements h h1 h2, fun t => ?_, by decide,
    by decide⟩
  show takeBefore ['<', '='] (takeBefore ['>', '='] (takeBefore ['=', '='] t.data)) <+: t.data
  exact ((takeBefore_pre _ _).trans (takeBefore_pre _ _)).trans (takeBefore_pre _ _)

/-- C1 witness: instantiating the amended membership property on the
manifest `["Requests==2.31.0"]`. -/
theorem C1_amended_witness :
    lowerStr (base_of (pyStrip "Requests==2.31.0")) ∈
      read_requirements ["Requests==2.31.0"] :=
  C1_amended.1 ["Requests==2.31.0"] "Requests==2.31.0" (by decide) (by decide) (by decide)

/-- C2: on a syntactically valid file, a `from X[.sub] import Y` statement
with a (truthy) named module contributes exactly the first path segment of
`X`; the result never depends on the imported member names (erasing them
leaves the extraction unchanged); `from foo.bar import baz` yields
`{"foo"}`. -/
theorem C2_from_import :
    (∀ (name : String) (nodes : List ImportStmt),
      find_imports_in_file ⟨name, Except.ok nodes⟩ = Except.ok (find_imports_in_ast nodes)) ∧
    (∀ (nodes : List ImportStmt) (X : String) (ns : List Alias) (lvl : Nat),
      ImportStmt.impFrom (some X) ns lvl ∈ nodes → X ≠ "" →
      rootSegment X ∈ find_imports_in_ast nodes) ∧
    (∀ nodes : List ImportStmt,
      find_imports_in_ast (nodes.map dropMembers) = find_imports_in_ast nodes) ∧
    find_imports_in_ast [ImportStmt.impFrom (some "foo.bar") [⟨"baz", none⟩] 0] = {"foo"} := by
  refine ⟨fun name nodes => rfl, fun nodes X ns lvl h hX => ?_, fun nodes => ?_, by decide⟩
  · rw [find_imports_eq]
    exact mem_fileRoots_of_mem h (by simp [stmtRoots, hX])
  · rw [find_imports_eq, find_imports_eq]
    exact fileRoots_map_eq dropMembers stmtRoots_dropMembers nodes

/-- C2 witness: the `from foo.bar import baz` statement puts `"foo"` in the
extracted set. -/
theorem C2_from_import_witness :
    rootSegment "foo.bar" ∈
      find_imports_in_ast [ImportStmt.impFrom (some "foo.bar") [⟨"baz", none⟩] 0] :=
  C2_from_import.2.1 [ImportStmt.impFrom (some "foo.bar") [⟨"baz", none⟩] 0] "foo.bar"
    [⟨"baz", none⟩] 0 (by decide) (by decide)

/-- C3: a direct `import X[.sub][ as Y]` statement contributes the first
path segment of each imported dotted name; the `as` aliases never influence
the result (erasing them leaves the extraction unchanged); a file with
`import os` and `import sys as s` yields `{"os", "sys"}`. -/
theorem C3_direct_import :
    (∀ (nodes : List ImportStmt) (aliases : List Alias) (a : Alias),
      ImportStmt.imp aliases ∈ nodes → a ∈ aliases →
      rootSegment a.name ∈ find_imports_in_ast nodes) ∧
    (∀ nodes : List ImportStmt,
      find_imports_in_ast (nodes.map dropAliases) = find_imports_in_ast nodes) ∧
    find_imports_in_ast [ImportStmt.imp [⟨"os", none⟩], ImportStmt.imp [⟨"sys", some "s"⟩]] =
      {"os", "sys"} := by
  refine ⟨fun nodes aliases a h ha => ?_, fun nodes => ?_, by decide⟩
  · rw [find_imports_eq]
    exact mem_fileRoots_of_mem h (rootSegment_mem_aliasRoots ha)
  · rw [find_imports_eq, find_imports_eq]
    exact fileRoots_map_eq dropAliases stmtRoots_dropAliases nodes

/-- C3 witness: `import sys as s` puts `"sys"` in the extracted set of the
two-statement example file. -/
theorem C3_direct_import_witness :
    rootSegment "sys" ∈
      find_imports_in_ast [ImportStmt.imp [⟨"os", none⟩], ImportStmt.imp [⟨"sys", some "s"⟩]] :=
  C3_direct_import.1 [ImportStmt.imp [⟨"os", none⟩], ImportStmt.imp [⟨"sys", some "s"⟩]]
    [⟨"sys", some "s"⟩] ⟨"sys", some "s"⟩ (by decide) (by decide)

/-- C4: relative imports with no named module (`from . import x`, i.e.
`ImportFrom` nodes whose module is `None`) contribute nothing; a file made
only of such statements extracts to the empty set. -/
theorem C4_relative :
    (∀ nodes : List ImportStmt,
      (∀ s ∈ nodes, ∃ ns lvl, s = ImportStmt.impFrom none ns lvl) →
      find_imports_in_ast nodes = ∅) ∧
    find_imports_in_ast [ImportStmt.impFrom none [⟨"x", none⟩] 1] = (∅ : Finset String) := by
  refine ⟨fun nodes h => ?_, by decide⟩
  rw [find_imports_eq]
  exact fileRoots_empty_of_all_none h

/-- C4 witness: a file whose only statement is `from . import x` extracts to
the empty set. -/
theorem C4_relative_witness :
    find_imports_in_ast [ImportStmt.impFrom none [⟨"x", none⟩] 1] = (∅ : Finset String) :=
  C4_relative.1 [ImportStmt.impFrom none [⟨"x", none⟩] 1]
    (by
      intro s hs
      rw [List.mem_singleton] at hs
      exact ⟨[⟨"x", none⟩], 1, hs⟩)

/-- C5: the Reporter's "possibly missing" is exactly the set difference
Import Set minus Declared Set and "possibly unused" is exactly the reverse
difference; each is printed as a sorted list with exactly the difference's
elements; on `{"a","b","c"}` and `{"b","c","d"}` they are `{"a"}` and
`{"d"}`. -/
theorem C5_report :
    (∀ imports reqs : Finset String, ∀ x : String,
      (x ∈ possibly_missing imports reqs ↔ x ∈ imports ∧ x ∉ reqs) ∧
      (x ∈ possibly_unused imports reqs ↔ x ∈ reqs ∧ x ∉ imports)) ∧
    (∀ imports reqs : Finset String,
      (printSorted (possibly_missing imports reqs)).Sorted (· ≤ ·) ∧
      (printSorted (possibly_unused imports reqs)).Sorted (· ≤ ·) ∧
      (∀ x, x ∈ printSorted (possibly_missing imports reqs) ↔
        x ∈ possibly_missing imports reqs) ∧
      (∀ x, x ∈ printSorted (possibly_unused imports reqs) ↔
        x ∈ possibly_unused imports reqs)) ∧
    possibly_missing {"a", "b", "c"} {"b", "c", "d"} = {"a"} ∧
    possibly_unused {"a", "b", "c"} {"b", "c", "d"} = {"d"} := by
  refine ⟨fun imports reqs x => ⟨Finset.mem_sdiff, Finset.mem_sdiff⟩,
    fun imports reqs => ⟨Finset.sort_sorted _ _, Finset.sort_sorted _ _,
      fun x => Finset.mem_sort _, fun x => Finset.mem_sort _⟩, by decide, by decide⟩

/-- C6 counterexample. The claim demands that every element of the Declared
Set is free of the separator `'.'`; but the manifest line
`zope.interface==5.0` puts `"zope.interface"`, which contains `'.'`, into
the Declared Set. -/
theorem C6_counterexample :
    "zope.interface" ∈ read_requirements ["zope.interface==5.0"] ∧
      '.' ∈ ("zope.interface" : String).data := by
  decide

/-- C6 (amended): every element of the Import Set is a root-level name: it
contains no `'.'`, and (for files whose module paths are made of
non-marker characters, as every `ast`-parsed dotted identifier is) no
version-marker character; every element of the Declared Set contains no
`==`, `>=` or `<=` substring - but Declared Set elements may retain `'.'`,
since dotted manifest names pass through unsplit. -/
theorem C6_amended :
    (∀ nodes : List ImportStmt, ∀ x ∈ find_imports_in_ast nodes, '.' ∉ x.data) ∧
    (∀ nodes : List ImportStmt, identOnly nodes = true →
      ∀ x ∈ find_imports_in_ast nodes, ∀ c ∈ x.data, markerChar c = false) ∧
    (∀ lines : List String, ∀ x ∈ read_requirements lines,
      containsSeq ['=', '='] x.data = false ∧ containsSeq ['>', '='] x.data = false ∧
        containsSeq ['<', '='] x.data = false) := by
  refine ⟨fun nodes x hx => ?_, fun nodes hident x hx c hc => ?_,
    fun lines x hx => read_requirements_no_marker hx⟩
  · rw [find_imports_eq] at hx
    obtain ⟨s, _, hxs⟩ := exists_stmt_of_mem_fileRoots hx
    obtain ⟨str, _, rfl⟩ := exists_string_of_mem_stmtRoots hxs
    exact rootSegment_no_dot str
  · rw [find_imports_eq] at hx
    obtain ⟨s, hs, hxs⟩ := exists_stmt_of_mem_fileRoots hx
    obtain ⟨str, hstr, rfl⟩ := exists_string_of_mem_stmtRoots hxs
    simp only [identOnly, List.all_eq_true] at hident
    have := hident s hs str hstr c (rootSegment_chars_subset hc)
    simpa using this

/-- C6 witness: instantiating the Declared-Set marker-freedom on the entry
`"requests"` produced by the manifest `["Requests==2.31.0"]`. -/
theorem C6_amended_witness :
    containsSeq ['=', '='] ("requests" : String).data = false :=
  (C6_amended.2.2 ["Requests==2.31.0"] "requests" (by decide)).1

/-- C7: when the tree contains a `.py` file whose parse fails, the Source
Scanner returns the error (no partial set), and the run produces none of its
output lines - in particular not the two discrepancy lines. -/
theorem C7_abort :
    ∀ (files : List FsFile) (reqLines : List String),
      (∃ f ∈ files, endswith f.name ".py" = true ∧ isOkE f.parse = false) →
      (∃ e, scan_all_py_files files = Except.error e) ∧
        (run_main files reqLines).1 = [] ∧ (run_main files reqLines).2 ≠ none := by
  intro files reqLines hbad
  obtain ⟨e, he⟩ := scanGo_error_of_bad hbad ∅
  have hs : scan_all_py_files files = Except.error e := he
  refine ⟨⟨e, hs⟩, ?_, ?_⟩
  · unfold run_main
    rw [hs]
  · unfold run_main
    rw [hs]
    simp

/-- C7 witness: one unparsable `.py` file aborts the run with no output. -/
theorem C7_abort_witness :
    (∃ e, scan_all_py_files [⟨"bad.py", Except.error "SyntaxError: invalid syntax"⟩] =
      Except.error e) ∧
      (run_main [⟨"bad.py", Except.error "SyntaxError: invalid syntax"⟩] []).1 = [] ∧
      (run_main [⟨"bad.py", Except.error "SyntaxError: invalid syntax"⟩] []).2 ≠ none :=
  C7_abort [⟨"bad.py", Except.error "SyntaxError: invalid syntax"⟩] [] (by decide)

/-- C8: manifest lines that are blank after stripping, or whose first
non-whitespace character is `#`, contribute nothing - removing such a line
leaves the Declared Set unchanged, and a manifest of only such lines yields
the empty set. -/
theorem C8_skip :
    (∀ (pre post : List String) (skip : String),
      pyStrip skip = "" ∨ startsWithHash (pyStrip skip) = true →
      read_requirements (pre ++ skip :: post) = read_requirements (pre ++ post)) ∧
    (∀ lines : List String,
      (∀ l ∈ lines, pyStrip l = "" ∨ startsWithHash (pyStrip l) = true) →
      read_requirements lines = ∅) ∧
    read_requirements ["", "   ", "# comment", "\t# indented comment"] = ∅ := by
  refine ⟨fun pre post skip hskip => ?_, fun lines h => foldl_reqStep_skip_all h ∅, by decide⟩
  unfold read_requirements
  rw [List.foldl_append, List.foldl_append, List.foldl_cons, reqStep_skip hskip]

/-- C8 witness: a comment line and a blank line yield the empty Declared
Set. -/
theorem C8_skip_witness : read_requirements ["# only a comment", "  "] = ∅ :=
  C8_skip.2.1 ["# only a comment", "  "] (by decide)

/-- C9: the Source Scanner is a function of the tree's content only: a
successful scan returns the same import set over any traversal order
(permutation) of the same files. -/
theorem C9_perm :
    ∀ (l₁ l₂ : List FsFile) (s : Finset String), l₁.Perm l₂ →
      scan_all_py_files l₁ = Except.ok s → scan_all_py_files l₂ = Except.ok s := by
  intro l₁ l₂ s hperm h
  have hok₁ := allOk_of_scan_ok h
  have hok₂ : ∀ f ∈ l₂, endswith f.name ".py" = true → isOkE f.parse = true :=
    fun f hf => hok₁ f (hperm.mem_iff.mpr hf)
  have h₁ := scanGo_ok_of_allOk hok₁ ∅
  have h₂ := scanGo_ok_of_allOk hok₂ ∅
  have hh : (Except.ok s : Except String (Finset String)) = Except.ok (∅ ∪ bigUnion l₁) :=
    h.symm.trans h₁
  injection hh with hs
  show scanGo ∅ l₂ = Except.ok s
  rw [h₂, bigUnion_perm hperm.symm, ← hs]

/-- C9 witness: swapping the traversal order of two parsed files returns
the identical import set. -/
theorem C9_perm_witness :
    scan_all_py_files [⟨"b.py", Except.ok [ImportStmt.imp [⟨"sys", none⟩]]⟩,
        ⟨"a.py", Except.ok [ImportStmt.imp [⟨"os", none⟩]]⟩] =
      Except.ok ((∅ ∪ find_imports_in_ast [ImportStmt.imp [⟨"os", none⟩]]) ∪
        find_imports_in_ast [ImportStmt.imp [⟨"sys", none⟩]]) :=
  C9_perm
    [⟨"a.py", Except.ok [ImportStmt.imp [⟨"os", none⟩]]⟩,
      ⟨"b.py", Except.ok [ImportStmt.imp [⟨"sys", none⟩]]⟩]
    [⟨"b.py", Except.ok [ImportStmt.imp [⟨"sys", none⟩]]⟩,
      ⟨"a.py", Except.ok [ImportStmt.imp [⟨"os", none⟩]]⟩]
    ((∅ ∪ find_imports_in_ast [ImportStmt.imp [⟨"os", none⟩]]) ∪
      find_imports_in_ast [ImportStmt.imp [⟨"sys", none⟩]])
    (List.Perm.swap _ _ _) rfl

/-- C10 counterexample. The claim says every surviving line whose trimmed
text begins with one of the three markers adds `""`; but `<==1.0` begins
with the marker `<=`, and the code's first split (at `==`, which occurs at
index 1) makes it contribute `"<"`, not `""`. -/
theorem C10_counterexample :
    read_requirements ["<==1.0"] = {"<"} ∧ "" ∉ read_requirements ["<==1.0"] := by
  decide

/-- C10 (amended): a surviving manifest line whose trimmed text begins with
`==`, or begins with `>=` or `<=` not immediately followed by another `=`,
adds the empty string to the Declared Set (e.g. the line `==1.0`). -/
theorem C10_amended :
    ∀ (lines : List String) (raw : String), raw ∈ lines → pyStrip raw ≠ "" →
      startsWithHash (pyStrip raw) = false →
      ((∃ r, (pyStrip raw).data = '=' :: '=' :: r) ∨
        (∃ r, (pyStrip raw).data = '>' :: '=' :: r ∧ startsWithSeq ['='] r = false) ∨
        (∃ r, (pyStrip raw).data = '<' :: '=' :: r ∧ startsWithSeq ['='] r = false)) →
      "" ∈ read_requirements lines := by
  intro lines raw h h1 h2 hcase
  have hmem := mem_read_requirements h h1 h2
  rcases hcase with ⟨r, ht⟩ | ⟨r, ht, hr⟩ | ⟨r, ht, hr⟩
  · rw [base_of_eqeq ht] at hmem
    exact hmem
  · rw [base_of_geq ht hr] at hmem
    exact hmem
  · rw [base_of_leq ht hr] at hmem
    exact hmem

/-- C10 witness: the line `==1.0` adds `""` to the Declared Set. -/
theorem C10_amended_witness : "" ∈ read_requirements ["==1.0"] :=
  C10_amended ["==1.0"] "==1.0" (by decide) (by decide) (by decide)
    (Or.inl ⟨['1', '.', '0'], by decide⟩)

end ImportAudit
